import Mathlib

/-!
Verification development for the Audiobook QC-Pack generator.

The repository's source is TypeScript; the definitions below are a shallow
embedding of its pure core.  Spreadsheet cells are modelled as `Option String`
(`none` is a null/undefined cell), JavaScript numbers as `ℚ` (`Option ℚ` where
`NaN` must be representable), and JavaScript strings as Lean strings processed
through their character lists.  Each definition's doc comment names the source
function and lines it embeds.  `src/src/services/file-parser.service.ts`
contains two concatenated versions of `FileParserService`; the application
(`app.component.ts`) invokes the three-argument `parseQcFile`, which only the
second version defines, so the second version is the live parser.  Definitions
from the first (superseded) version carry the suffix `1`, those from the live
version the suffix `2`.  The PDF side embeds `src/unnamed/part_000` (the
`PdfService` with cross-page bridging cited by the claims) and the
`normalizeForSearch` routine shared verbatim by `src/src/services/pdf.service.ts`.
-/

namespace QCPack

/-- Characters matched by the JavaScript regex whitespace class (a representative
finite set: ASCII whitespace plus the no-break space).  Used everywhere the
source writes a backslash-s in a regex or calls `trim()`. -/
def isWsChar (c : Char) : Bool :=
  c == ' ' || c == '\t' || c == '\n' || c == '\r' || c == '\x0b' || c == '\x0c' || c == ' '

/-- ASCII lowercasing; models `String.prototype.toLowerCase` on the character
repertoire this program manipulates (the ligature and curly-quote code points it
cares about are case-invariant, and other non-ASCII letters are discarded by the
keep-class filter of the normalizer before they could matter).  65-90 are the
codes of A-Z. -/
def asciiLower (c : Char) : Char :=
  if 65 ≤ c.toNat && c.toNat ≤ 90 then Char.ofNat (c.toNat + 32) else c

/-- ASCII uppercasing; models `String.prototype.toUpperCase` for header
matching.  97-122 are the codes of a-z. -/
def asciiUpper (c : Char) : Char :=
  if 97 ≤ c.toNat && c.toNat ≤ 122 then Char.ofNat (c.toNat - 32) else c

/-- Case-insensitive character comparison (ASCII). -/
def ciEq (c d : Char) : Bool := asciiLower c == asciiLower d

/-- Does `cs` start with the pattern `pat` (literal comparison)? -/
def listStartsWith : List Char → List Char → Bool
  | _, [] => true
  | [], _ :: _ => false
  | c :: cs, d :: ds => c == d && listStartsWith cs ds

/-- Does `cs` start with the pattern `pat`, comparing case-insensitively? -/
def ciStartsWith : List Char → List Char → Bool
  | _, [] => true
  | [], _ :: _ => false
  | c :: cs, d :: ds => ciEq c d && ciStartsWith cs ds

/-- Does `cs` end with `pat`? -/
def listEndsWith (cs pat : List Char) : Bool :=
  listStartsWith cs.reverse pat.reverse

/-- `String.prototype.trim()` on a character list: strip leading and trailing
JavaScript whitespace. -/
def jsTrimList (cs : List Char) : List Char :=
  ((cs.dropWhile isWsChar).reverse.dropWhile isWsChar).reverse

/-- `String.prototype.trim()`. -/
def jsTrim (s : String) : String := ⟨jsTrimList s.data⟩

/-- Lowercase a whole string (ASCII model of `toLowerCase`). -/
def lowerStr (s : String) : String := ⟨s.data.map asciiLower⟩

/-- Uppercase a whole string (ASCII model of `toUpperCase`). -/
def upperStr (s : String) : String := ⟨s.data.map asciiUpper⟩

/-- Splitter state machine: accumulate the current word (reversed) while
scanning; emit it at each whitespace boundary.  Implements the effect of
splitting on runs of whitespace and dropping empty pieces. -/
def wordsAux : List Char → List Char → List (List Char)
  | [], acc => if acc.isEmpty then [] else [acc.reverse]
  | c :: cs, acc =>
    if isWsChar c then
      if acc.isEmpty then wordsAux cs [] else acc.reverse :: wordsAux cs []
    else wordsAux cs (c :: acc)

/-- The whitespace-separated words of a character list (empty pieces dropped). -/
def wordsOf (cs : List Char) : List (List Char) := wordsAux cs []

/-- Join words back with single spaces.  Together with `wordsOf` this models the
composite `replace(\s+ → one space)` then `trim()` that ends every normalizer
in the source. -/
def joinWords : List (List Char) → List Char
  | [] => []
  | [w] => w
  | w :: w' :: ws => w ++ ' ' :: joinWords (w' :: ws)

/-- Is `c` in the keep class of `normalizeForSearch` (`[a-z0-9'\s]` minus the
whitespace part, which is handled separately)?  97-122 are the codes of a-z,
48-57 those of 0-9. -/
def isKeepChar (c : Char) : Bool :=
  (97 ≤ c.toNat && c.toNat ≤ 122) || (48 ≤ c.toNat && c.toNat ≤ 57) || c == '\''

/-- Straighten curly quotes: the two `replace` quote rules of
`normalizeForSearch`. -/
def quoteMap (c : Char) : Char :=
  if c == '‘' || c == '’' then '\''
  else if c == '“' || c == '”' then '"'
  else c

/-- Ligature expansion table of `normalizeForSearch` (`none`: not a ligature). -/
def ligExpand (c : Char) : Option (List Char) :=
  if c == 'ﬁ' then some ['f', 'i']
  else if c == 'ﬂ' then some ['f', 'l']
  else if c == 'ﬀ' then some ['f', 'f']
  else if c == 'ﬃ' then some ['f', 'f', 'i']
  else if c == 'ﬄ' then some ['f', 'f', 'l']
  else none

/-- Per-character step of `normalizeForSearch`
(`src/src/services/pdf.service.ts` lines 388-405, identical in
`src/unnamed/part_000` lines 500-517): lowercase, expand the five standard
ligatures, straighten curly quotes, and replace every character outside
`[a-z0-9'\s]` by a space.  The source replaces whole runs of non-keep
characters by one space and then collapses whitespace runs; replacing each such
character by one space yields the same result after the shared
whitespace-collapsing pass (`wordsOf`/`joinWords`), so the composite function
is unchanged.  `normCharTail` is the keep-class filter applied after
lowercasing, ligature and quote handling. -/
def normCharTail (d : Char) : List Char :=
  if isKeepChar d then [d] else if isWsChar d then [d] else [' ']

/-- Per-character step of `normalizeForSearch`; see `normCharTail`. -/
def normChar (c : Char) : List Char :=
  match ligExpand (asciiLower c) with
  | some e => e
  | none => normCharTail (quoteMap (asciiLower c))

/-- `normalizeForSearch` (`src/src/services/pdf.service.ts` lines 388-405):
lowercase, ligature expansion, quote straightening, keep-class filtering, and
whitespace collapsing with trim. -/
def normalizeForSearch (s : String) : String :=
  ⟨joinWords (wordsOf (s.data.flatMap normChar))⟩

/-! ### Spreadsheet cells and JavaScript primitives -/

/-- A spreadsheet cell: `none` models an absent (undefined) cell, `some s` a
cell whose `toString()` is `s`. -/
abbrev Cell := Option String

/-- `row[i]`: out-of-range access gives an absent cell. -/
def getCell (row : List Cell) (i : Nat) : Cell :=
  (row.get? i).getD none

/-- `row[i] ? row[i].toString() : ''`: absent cells and the (falsy) empty
string both give the empty string. -/
def getCellStr (row : List Cell) (i : Nat) : String :=
  (getCell row i).getD ""

/-- Decimal digit run to a natural number. -/
def digitsToNat (ds : List Char) : Nat :=
  ds.foldl (fun n d => 10 * n + (d.toNat - 48)) 0

/-- Strip an optional leading sign; `true` means negative. -/
def splitSign : List Char → Bool × List Char
  | '-' :: cs => (true, cs)
  | '+' :: cs => (false, cs)
  | cs => (false, cs)

/-- Parse `digits[.digits]` or `.digits`, returning the value and the rest. -/
def parseMantissa (cs : List Char) : Option (ℚ × List Char) :=
  let intPart := cs.takeWhile Char.isDigit
  let rest := cs.dropWhile Char.isDigit
  match rest with
  | '.' :: rest2 =>
    let fracPart := rest2.takeWhile Char.isDigit
    let rest3 := rest2.dropWhile Char.isDigit
    if intPart.isEmpty && fracPart.isEmpty then none
    else some ((digitsToNat intPart : ℚ) + (digitsToNat fracPart : ℚ) / ((10 : ℚ) ^ fracPart.length), rest3)
  | _ =>
    if intPart.isEmpty then none else some ((digitsToNat intPart : ℚ), rest)

/-- Parse an optional trailing exponent, returning the multiplier. -/
def parseExpo : List Char → Option ℚ
  | [] => some 1
  | e :: cs =>
    if e == 'e' || e == 'E' then
      let (neg, cs2) := splitSign cs
      let ds := cs2.takeWhile Char.isDigit
      let rest := cs2.dropWhile Char.isDigit
      if ds.isEmpty || !rest.isEmpty then none
      else some (if neg then 1 / ((10 : ℚ) ^ digitsToNat ds) else ((10 : ℚ) ^ digitsToNat ds))
    else none

/-- `Number(s)` on a string: `none` models `NaN`.  Whitespace is trimmed and the
empty result is `0`; otherwise a signed decimal numeral with optional fraction
and exponent (the hexadecimal and `Infinity` forms, never fed to `Number` by
this program, are not modelled). -/
def jsNumber (s : String) : Option ℚ :=
  let t := jsTrimList s.data
  if t.isEmpty then some 0
  else
    let (neg, cs) := splitSign t
    match parseMantissa cs with
    | none => none
    | some (m, rest) =>
      let v := if neg then -m else m
      match rest with
      | [] => some v
      | _ =>
        match parseExpo rest with
        | none => none
        | some mult => some (v * mult)

/-- `Number(cell)` on a raw cell: `Number(undefined)` is `NaN`. -/
def jsNumberCell (c : Cell) : Option ℚ :=
  match c with
  | some s => jsNumber s
  | none => none

/-- `str.match(/^(\d+)/)`: the leading digit run, if non-empty. -/
def leadingDigits (s : String) : Option String :=
  let ds := s.data.takeWhile Char.isDigit
  if ds.isEmpty then none else some (String.mk ds)

/-- `str.match(/\d+/)` followed by `parseInt`: the first digit run anywhere in
the string, as a number. -/
def firstDigitRun (s : String) : Option Nat :=
  let ds := (s.data.dropWhile (fun c => !c.isDigit)).takeWhile Char.isDigit
  if ds.isEmpty then none else some (digitsToNat ds)

/-- Splitter on an arbitrary character predicate, dropping empty pieces
(same state machine as `wordsAux`). -/
def splitChAux (p : Char → Bool) : List Char → List Char → List (List Char)
  | [], acc => if acc.isEmpty then [] else [acc.reverse]
  | c :: cs, acc =>
    if p c then
      if acc.isEmpty then splitChAux p cs [] else acc.reverse :: splitChAux p cs []
    else splitChAux p cs (c :: acc)

/-- `s.split(' ').filter(w => w.length > 0)`: split on the single space
character, dropping empty pieces. -/
def splitSpaceNE (s : String) : List String :=
  (splitChAux (fun c => c == ' ') s.data []).map String.mk

/-- `s.split(/\s+/).filter(Boolean)`. -/
def splitWsNE (s : String) : List String :=
  (wordsOf s.data).map String.mk

/-- `s.split(/\s+/)` without filtering, applied to an already-trimmed string:
JavaScript returns `[""]` for the empty string and the plain word list
otherwise. -/
def splitWsRawTrimmed (s : String) : List String :=
  if s = "" then [""] else splitWsNE s

/-- A straight quote character, the class `["']`. -/
def isQuoteCh (c : Char) : Bool := c == '"' || c == '\''

/-- `.replace(/^["']|["']$/g, '')`: drop one leading and then one trailing
straight quote. -/
def stripEdgeQuotes (s : String) : String :=
  let cs1 := match s.data with
    | c :: rest => if isQuoteCh c then rest else s.data
    | [] => []
  let cs2 := match cs1.reverse with
    | c :: rest => if isQuoteCh c then rest.reverse else cs1
    | [] => cs1
  String.mk cs2

/-- `.replace(/\u200b/g, '')`: remove every zero-width space. -/
def stripZwsp (s : String) : String :=
  String.mk (s.data.filter (fun c => !(c == '\u200B')))

/-- Does the list contain a newline?  `.` in a JavaScript regex without the `s`
flag cannot match a newline, so captures spanning one fail. -/
def hasNl (cs : List Char) : Bool := cs.any (fun c => c == '\n')

/-! ### Note-pattern matching (observable behaviour of the classifier regexes) -/

/-- Capture for `\s+(.+)$` applied at `afterSep` (the text following a matched
separator or keyword): at least one whitespace character must follow, then the
greedy whitespace run is consumed and the rest is captured; `.` cannot match a
newline, and if nothing but whitespace remains the engine backtracks one
whitespace character to satisfy the non-empty capture. -/
def candRightPlus (afterSep : List Char) : Option (List Char) :=
  match afterSep with
  | [] => none
  | c :: _ =>
    if !isWsChar c then none
    else
      let full := afterSep.dropWhile isWsChar
      if full.isEmpty then
        if 2 ≤ afterSep.length then
          match afterSep.getLast? with
          | some d => if d == '\n' then none else some [d]
          | none => none
        else none
      else if hasNl full then none else some full

/-- Capture for `\s+(.*)$`: like `candRightPlus` but the capture may be empty. -/
def candRightStar (afterSep : List Char) : Option (List Char) :=
  match afterSep with
  | [] => none
  | c :: _ =>
    if !isWsChar c then none
    else
      let full := afterSep.dropWhile isWsChar
      if hasNl full then none else some full

/-- Capture for `\s*(.+)$`: whitespace optional, capture non-empty. -/
def candRightStarOpt (afterKw : List Char) : Option (List Char) :=
  let full := afterKw.dropWhile isWsChar
  if full.isEmpty then
    if afterKw.isEmpty then none
    else
      match afterKw.getLast? with
      | some d => if d == '\n' then none else some [d]
      | none => none
  else if hasNl full then none else some full

/-- All split candidates of `left ++ ws-run ++ sep ++ afterSep` in position
order: at every position starting a whitespace run whose maximal extent is
immediately followed by the (case-insensitive, non-whitespace-initial)
separator literal, record the text before the run and the text after the
separator. -/
def sepSplitsAux (sep : List Char) : List Char → List Char → List (List Char × List Char)
  | [], _ => []
  | c :: cs, revLeft =>
    let tail := sepSplitsAux sep cs (c :: revLeft)
    if isWsChar c then
      let rest := (c :: cs).dropWhile isWsChar
      if ciStartsWith rest sep then
        (revLeft.reverse, rest.drop sep.length) :: tail
      else tail
    else tail

/-- `^(.+?)\s+SEP\s+(.+)$` (case-insensitive separator): the lazy left group
takes the first split whose left part is non-empty and newline-free and whose
right side satisfies `candRightPlus`. -/
def lazySepSplit (sep : String) (s : String) : Option (String × String) :=
  ((sepSplitsAux sep.data s.data []).filterMap (fun la =>
    if la.1.isEmpty then none
    else if hasNl la.1 then none
    else
      match candRightPlus la.2 with
      | some r => some (String.mk la.1, String.mk r)
      | none => none)).head?

/-- `^(.*)\s+SEP\s+(.*)$` (case-insensitive separator): the greedy left group
takes the last valid split; both sides may be empty. -/
def greedySepSplit (sep : String) (s : String) : Option (String × String) :=
  ((sepSplitsAux sep.data s.data []).filterMap (fun la =>
    if hasNl la.1 then none
    else
      match candRightStar la.2 with
      | some r => some (String.mk la.1, String.mk r)
      | none => none)).getLast?

/-- `^(MR|MW):\s*` (case-insensitive): the tag as written and the raw rest
after the colon (whitespace not yet consumed). -/
def roleTag (s : String) : Option (String × String) :=
  match s.data with
  | a :: b :: c :: rest =>
    if ciEq a 'm' && (ciEq b 'r' || ciEq b 'w') && c == ':' then
      some (String.mk [a, b], String.mk rest)
    else none
  | _ => none

/-- The live parser's `S/B` matcher
(`src/src/services/file-parser.service.ts` line 639):
`^(?:(MR|MW):\s*)?(.+?)\s+S\/B\s+(.+)$/i`.  The optional tag participates
first; the greedy `\s*` after its colon backtracks from full consumption down
to none, and if no completion succeeds the whole match is retried without the
tag group (the tag characters then belong to the lazy left group). -/
def sbMatch2 (s : String) : Option (Option String × String × String) :=
  match roleTag s with
  | some (tag, rest) =>
    let run := rest.data.takeWhile isWsChar
    let core := rest.data.dropWhile isWsChar
    match (List.range (run.length + 1)).findSome?
        (fun i => lazySepSplit "s/b" (String.mk (run.drop (run.length - i) ++ core))) with
    | some (l, r) => some (some tag, l, r)
    | none =>
      match lazySepSplit "s/b" s with
      | some (l, r) => some (none, l, r)
      | none => none
  | none =>
    match lazySepSplit "s/b" s with
    | some (l, r) => some (none, l, r)
    | none => none

/-- `Word(?:s)?\s+` at the start with only `Word` participating: requires
whitespace directly after `word`. -/
def wordTagDrop4 (s : List Char) : Option (List Char) :=
  if ciStartsWith s "word".data then
    match s.drop 4 with
    | c :: _ => if isWsChar c then some ((s.drop 4).dropWhile isWsChar) else none
    | [] => none
  else none

/-- `Word(?:s)?\s+` at the start (case-insensitive): try `Words` first, then
`Word`; `none` when neither is followed by whitespace. -/
def wordTagDrop (s : List Char) : Option (List Char) :=
  if ciStartsWith s "words".data then
    match s.drop 5 with
    | c :: _ => if isWsChar c then some ((s.drop 5).dropWhile isWsChar) else wordTagDrop4 s
    | [] => wordTagDrop4 s
  else wordTagDrop4 s

/-- Keyword capture at the start of the note: `^KW\s+(.+)$` when `wsRequired`,
else `^KW\s*(.+)$`; with `wordTag`, an optional leading `Word(?:s)?\s+` is
tried first and dropped again if the keyword does not follow. -/
def kwCapture (kw : String) (wordTag : Bool) (wsRequired : Bool) (s : String) : Option String :=
  let tryOn := fun (cs : List Char) =>
    if ciStartsWith cs kw.data then
      match (if wsRequired then candRightPlus (cs.drop kw.data.length)
             else candRightStarOpt (cs.drop kw.data.length)) with
      | some r => some (String.mk r)
      | none => none
    else none
  if wordTag then
    match wordTagDrop s.data with
    | some stripped =>
      match tryOn stripped with
      | some r => some r
      | none => tryOn s.data
    | none => tryOn s.data
  else tryOn s.data

/-- `^(?:Word(?:s)?\s+)?Missing:\s+(.+)$/i`. -/
def missingMatch (s : String) : Option String := kwCapture "missing:" true true s

/-- `^(?:Word(?:s)?\s+)?Inserted:\s+(.+)$/i`. -/
def insertedMatch (s : String) : Option String := kwCapture "inserted:" true true s

/-- `^omitted line:\s*(.+)$/i`. -/
def omittedLineMatch (s : String) : Option String := kwCapture "omitted line:" false false s

/-- `^omitted:\s*(.+)$/i`. -/
def omittedColonMatch (s : String) : Option String := kwCapture "omitted:" false false s

/-- `^omitted\s+(.+)$/i`. -/
def omittedPlainMatch (s : String) : Option String := kwCapture "omitted" false true s

/-- `^(.*)\s+sounds like\s+(.*)$/i`. -/
def soundsLikeMatch (s : String) : Option (String × String) := greedySepSplit "sounds like" s

/-- `^(.+?)\s+read as\s+(.+)$/i`. -/
def readAsMatch (s : String) : Option (String × String) := lazySepSplit "read as" s

/-! ### The note classifier (`processNotes`) -/

/-- The `correctionType` union of `models.ts`. -/
inductive CorrectionType
  | misread
  | missing
  | inserted
deriving DecidableEq, Repr

/-- Result record of `processNotes`. -/
structure ProcessedNote where
  formattedNote : String
  wordsForOblong : List String
  correctionType : CorrectionType
  searchableContext : String
deriving DecidableEq, Repr

/-- The `Correction` interface of `models.ts` (optional fields are produced
unconditionally by both parsers, hence plain; `Page` is `none` when the
JavaScript value would be `NaN`). -/
structure Correction where
  Id : String
  Page : Option ℚ
  ContextPhrase : String
  Notes : String
  Track : String
  Timestamp : String
  correctionType : CorrectionType
  wordsForOblong : List String
deriving DecidableEq, Repr

/-- Per-character step of the live parser's `normalizeText`
(`file-parser.service.ts` line 621): remove zero-width spaces, replace
placeholder glyphs and underscores by spaces; whitespace collapsing and
trimming are the shared `wordsOf`/`joinWords` pass (run-versus-character
replacement is again absorbed by the collapse). -/
def normTextChar2 (c : Char) : List Char :=
  if c == '​' then []
  else if c == '﹏' || c == '_' then [' ']
  else [c]

/-- The live parser's `normalizeText` (`file-parser.service.ts` lines 621-624). -/
def normalizeText2 (s : String) : String :=
  String.mk (joinWords (wordsOf (s.data.flatMap normTextChar2)))

/-- Per-character step of the superseded parser's `normalizeText`
(`file-parser.service.ts` line 249): same but without zero-width-space
removal. -/
def normTextChar1 (c : Char) : List Char :=
  if c == '﹏' || c == '_' then [' '] else [c]

/-- The superseded parser's `normalizeText` (`file-parser.service.ts`
lines 249-252). -/
def normalizeText1 (s : String) : String :=
  String.mk (joinWords (wordsOf (s.data.flatMap normTextChar1)))

/-- A character of the class `[\s_﹏]` used by the superseded parser's
placeholder regex. -/
def sepClassChar (c : Char) : Bool :=
  isWsChar c || c == '_' || c == '﹏'

/-- The boundary-word extraction of the superseded parser's `Inserted` branch
(`file-parser.service.ts` lines 358-370): `rawContext.match(/(.*?)[\s_﹏]+(.*?)/s)`.
The lazy first group stops at the first class character, the greedy class run
then swallows the maximal separator run, and the trailing lazy group always
matches the empty string, so `afterText` is always empty when the regex
matches at all. -/
def insertedOblong1 (rawContext : String) : List String :=
  if rawContext.data.any sepClassChar then
    let beforeText := jsTrim (String.mk (rawContext.data.takeWhile (fun c => !sepClassChar c)))
    let afterText := jsTrim ""
    let beforeWords := splitWsRawTrimmed beforeText
    let afterWords := splitWsRawTrimmed afterText
    if 0 < beforeWords.length && 0 < afterWords.length then
      [(beforeWords.getLast?).getD "", (afterWords.head?).getD ""]
    else []
  else []

/-- The live parser's `processNotes` (`file-parser.service.ts` lines 626-779):
branch order S/B, sounds-like, omitted-line, missing, omitted-colon, plain
omitted, inserted, verbatim fallthrough.  Every branch passes `originalContext`
through as `searchableContext`. -/
def processNotes2 (notes origCtx : String) (isAudible : Bool) : ProcessedNote :=
  if notes = "" then ⟨"", [], .misread, origCtx⟩
  else
    let n := stripZwsp (jsTrim notes)
    match sbMatch2 n with
    | some (tag, wrongRaw, rightRaw) =>
      let wrong := stripEdgeQuotes (jsTrim wrongRaw)
      let right := stripEdgeQuotes (jsTrim rightRaw)
      let base := "read as \"" ++ wrong ++ "\" should be read as \"" ++ right ++ "\""
      let fn := if isAudible then
          (if (match tag with | some t => upperStr t == "MW" | none => false)
           then "MW: " else "MR: ") ++ base
        else base
      ⟨fn, splitSpaceNE right, .misread, origCtx⟩
    | none =>
      match soundsLikeMatch n with
      | some (leftRaw, rightRaw) =>
        let right := stripEdgeQuotes (jsTrim leftRaw)
        let wrong := stripEdgeQuotes (jsTrim rightRaw)
        let base := "read as \"" ++ wrong ++ "\" should be read as \"" ++ right ++ "\""
        let fn := if isAudible then "MR: " ++ base else base
        ⟨fn, splitSpaceNE right, .misread, origCtx⟩
      | none =>
        match omittedLineMatch n with
        | some cap =>
          let om := stripEdgeQuotes (jsTrim cap)
          let base := "\"" ++ om ++ "\" is missing and should be read."
          let fn := if isAudible then "ML: " ++ base else base
          ⟨fn, splitSpaceNE om, .missing, origCtx⟩
        | none =>
          match missingMatch n with
          | some cap =>
            let mi := stripEdgeQuotes (jsTrim cap)
            let ws := splitSpaceNE mi
            let base := "\"" ++ mi ++ "\" is missing and should be read."
            let fn := if isAudible then (if 2 ≤ ws.length then "ML: " else "MW: ") ++ base
              else base
            ⟨fn, ws, .missing, origCtx⟩
          | none =>
            match omittedColonMatch n with
            | some cap =>
              let om := stripEdgeQuotes (jsTrim cap)
              let ws := splitSpaceNE om
              let base := "\"" ++ om ++ "\" is missing and should be read."
              let fn := if isAudible then (if 2 ≤ ws.length then "ML: " else "MW: ") ++ base
                else base
              ⟨fn, ws, .missing, origCtx⟩
            | none =>
              match omittedPlainMatch n with
              | some cap =>
                let om := stripEdgeQuotes (jsTrim cap)
                let ws := splitSpaceNE om
                let base := "\"" ++ om ++ "\" is missing and should be read."
                let fn := if isAudible then (if 2 ≤ ws.length then "ML: " else "MW: ") ++ base
                  else base
                ⟨fn, ws, .missing, origCtx⟩
              | none =>
                match insertedMatch n with
                | some cap =>
                  let ins := stripEdgeQuotes (jsTrim cap)
                  let ws := splitSpaceNE ins
                  let base := "\"" ++ ins ++ "\" was inserted and should be omitted."
                  let fn := if isAudible then (if 2 ≤ ws.length then "ML: " else "MW: ") ++ base
                    else base
                  ⟨fn, ws, .inserted, origCtx⟩
                | none => ⟨n, [], .misread, origCtx⟩

/-- The superseded parser's `processNotes` (`file-parser.service.ts`
lines 254-394): a leading `MR:`/`MW:` tag is stripped up front; branch order
S/B, read-as, missing, plain omitted, inserted, fallthrough with tag
restoration (`MW:` when none was present). -/
def processNotes1 (notes rawContext : String) (isAudible : Bool) : ProcessedNote :=
  if notes = "" then ⟨"", [], .misread, normalizeText1 rawContext⟩
  else
    let t0 := jsTrim notes
    let tagAndRest := match roleTag t0 with
      | some (tag, rest) => (some (upperStr tag), String.mk (rest.data.dropWhile isWsChar))
      | none => (none, t0)
    let tagU := tagAndRest.1
    let n := tagAndRest.2
    match lazySepSplit "s/b" n with
    | some (wrongRaw, rightRaw) =>
      let wrong := stripEdgeQuotes (jsTrim wrongRaw)
      let right := stripEdgeQuotes (jsTrim rightRaw)
      let base := "read as \"" ++ wrong ++ "\" should be read as \"" ++ right ++ "\""
      let fn := if isAudible then
          (if tagU == some "MW" then "MW: " else "MR: ") ++ base
        else base
      ⟨fn, splitSpaceNE right, .misread, normalizeText1 rawContext⟩
    | none =>
      match readAsMatch n with
      | some (correctRaw, incorrectRaw) =>
        let correctWord := stripEdgeQuotes (jsTrim correctRaw)
        let incorrectWord := stripEdgeQuotes (jsTrim incorrectRaw)
        let base := "read as \"" ++ incorrectWord ++ "\" should be read as \"" ++ correctWord ++ "\""
        let fn := if isAudible then "MR: " ++ base else base
        ⟨fn, splitSpaceNE correctWord, .misread, normalizeText1 rawContext⟩
      | none =>
        match missingMatch n with
        | some cap =>
          let mi := stripEdgeQuotes (jsTrim cap)
          let base := "\"" ++ mi ++ "\" is missing and should be read."
          let fn := if isAudible then
              (if 3 < (splitWsNE mi).length then "ML: " else "MW: ") ++ base
            else base
          ⟨fn, splitSpaceNE mi, .missing, normalizeText1 rawContext⟩
        | none =>
          match omittedPlainMatch n with
          | some cap =>
            let om := stripEdgeQuotes (jsTrim cap)
            let base := "\"" ++ om ++ "\" was omitted and should be read."
            let fn := if isAudible then
                (if 3 < (splitWsNE om).length then "ML: " else "MW: ") ++ base
              else base
            ⟨fn, splitSpaceNE om, .missing, normalizeText1 rawContext⟩
          | none =>
            match insertedMatch n with
            | some cap =>
              let ins := stripEdgeQuotes (jsTrim cap)
              let base := "\"" ++ ins ++ "\" was inserted and should be omitted."
              let fn := if isAudible then
                  (if 3 < (splitWsNE ins).length then "ML: " else "MW: ") ++ base
                else base
              ⟨fn, insertedOblong1 rawContext, .inserted, normalizeText1 rawContext⟩
            | none =>
              let fn := if isAudible then
                  (match tagU with
                   | none => "MW: " ++ n
                   | some t => t ++ ": " ++ n)
                else n
              ⟨fn, [], .misread, normalizeText1 rawContext⟩

/-! ### The row extractors (live `FileParserService`) -/

/-- `h ? h.toString().trim().toUpperCase() : ''` applied to a header cell. -/
def upperTrimCell (c : Cell) : String :=
  match c with
  | some str => upperStr (jsTrim str)
  | none => ""

/-- Does a row's upper-cased trimmed cell list include every required column
name (`requiredCols.every(col => row.includes(col))`)? -/
def rowHasAll (req : List String) (row : List Cell) : Bool :=
  req.all (fun col => (row.map upperTrimCell).contains col)

/-- Top-down scan for the first header row
(`findStandardHeaderAndData` / `findPostQcHeaderAndData`,
`file-parser.service.ts` lines 577-619); `none` models the thrown
header-not-found error. -/
def findHeaderIdx (req : List String) (rows : List (List Cell)) : Option Nat :=
  rows.findIdx? (rowHasAll req)

/-- Required columns of the standard dialect. -/
def stdRequired : List String := ["ID", "PAGE", "CONTEXT", "NOTES"]

/-- Required columns of the post-QC dialect. -/
def postQcRequired : List String := ["CD-TRK", "TIME", "TEXT", "EDITOR COMMENTS"]

/-- `Array.prototype.indexOf` on the upper-cased header. -/
def indexOfStr (a : String) (l : List String) : Option Nat :=
  l.findIdx? (fun x => x == a)

/-- Column indices of the standard dialect (`parseStandardQcRows`,
`file-parser.service.ts` lines 514-519).  The four required columns are
guaranteed present in the selected header row, so the `getD 0` fallbacks are
unreachable, exactly as the source's `indexOf` never returns `-1` for them;
`TIME CODE` may genuinely be absent (`none` models `-1`). -/
structure StdCfg where
  idIndex : Nat
  pageIndex : Nat
  contextIndex : Nat
  notesIndex : Nat
  timeCodeIndex : Option Nat
deriving DecidableEq, Repr

/-- Build the standard-dialect column indices from the upper-cased header. -/
def stdCfgOf (headerUpper : List String) : StdCfg where
  idIndex := (indexOfStr "ID" headerUpper).getD 0
  pageIndex := (indexOfStr "PAGE" headerUpper).getD 0
  contextIndex := (indexOfStr "CONTEXT" headerUpper).getD 0
  notesIndex := (indexOfStr "NOTES" headerUpper).getD 0
  timeCodeIndex := indexOfStr "TIME CODE" headerUpper

/-- The track-marker scan (`file-parser.service.ts` lines 527-534): the first
cell whose string ends in `.wav`, case-insensitively. -/
def findWavCell (row : List Cell) : Option String :=
  row.findSome? (fun c =>
    match c with
    | some str => if listEndsWith (lowerStr str).data ".wav".data then some str else none
    | none => none)

/-- One data row of the live `parseStandardQcRows`
(`file-parser.service.ts` lines 524-572): skip empty rows; a `.wav` row
updates the running track id (when it has a leading digit run) and emits
nothing; a row whose ID cell is falsy or not numeric is skipped; the status is
the trimmed cell in the column immediately after CONTEXT and gates emission on
exact equality with `Fix Not Possible Without Pickup`; a row whose processed
context is empty is dropped with a console diagnostic. -/
def stdStep2 (cfg : StdCfg) (isAudible : Bool) (track : String) (row : List Cell) :
    String × Option Correction :=
  if row.isEmpty then (track, none)
  else
    match findWavCell row with
    | some filename =>
      (match leadingDigits filename with
       | some d => d
       | none => track, none)
    | none =>
      let idCell := getCellStr row cfg.idIndex
      if idCell = "" || (jsNumber idCell).isNone then (track, none)
      else
        let status := jsTrim (getCellStr row (cfg.contextIndex + 1))
        if status = "Fix Not Possible Without Pickup" then
          let notes := getCellStr row cfg.notesIndex
          let originalContext := normalizeText2 (getCellStr row cfg.contextIndex)
          let timestamp := match cfg.timeCodeIndex with
            | some t => getCellStr row t
            | none => ""
          let pn := processNotes2 notes originalContext isAudible
          if pn.searchableContext = "" then (track, none)
          else
            (track, some
              { Id := idCell
                Page := jsNumberCell (getCell row cfg.pageIndex)
                ContextPhrase := pn.searchableContext
                Notes := pn.formattedNote
                Track := track
                Timestamp := timestamp
                correctionType := pn.correctionType
                wordsForOblong := pn.wordsForOblong })
        else (track, none)

/-- The row loop of the live `parseStandardQcRows`: thread the current track
id, collect emitted corrections in order. -/
def stdCollect2 (cfg : StdCfg) (isAudible : Bool) : String → List (List Cell) → List Correction
  | _, [] => []
  | track, r :: rs =>
    match stdStep2 cfg isAudible track r with
    | (track', some c) => c :: stdCollect2 cfg isAudible track' rs
    | (track', none) => stdCollect2 cfg isAudible track' rs

/-- The live `parseStandardQcRows` (`file-parser.service.ts` lines 510-575):
find the header, derive indices, fold over the data rows.  `none` models the
header-not-found exception. -/
def parseStandardQcRows2 (rows : List (List Cell)) (isAudible : Bool) :
    Option (List Correction) :=
  match findHeaderIdx stdRequired rows with
  | none => none
  | some hIdx =>
    let headerUpper := ((rows.get? hIdx).getD []).map upperTrimCell
    some (stdCollect2 (stdCfgOf headerUpper) isAudible "" (rows.drop (hIdx + 1)))

/-- Column indices of the post-QC dialect. -/
structure PostQcCfg where
  trackIndex : Nat
  timeIndex : Nat
  pageIndex : Nat
  textIndex : Nat
  problemIndex : Nat
  editorIndex : Nat
deriving DecidableEq, Repr

/-- `.replace(/\[\[|\]\]/g, '')`: remove every `[[` and `]]`, scanning left to
right. -/
def removeDoubleBrackets : List Char → List Char
  | [] => []
  | '[' :: '[' :: rest => removeDoubleBrackets rest
  | ']' :: ']' :: rest => removeDoubleBrackets rest
  | c :: rest => c :: removeDoubleBrackets rest

/-- Scan for the first `]]`, accumulating the (newline-free) content before it. -/
def brContentAux : List Char → List Char → Option (List Char)
  | [], _ => none
  | ']' :: ']' :: _, acc => some acc.reverse
  | c :: rest, acc => if c == '\n' then none else brContentAux rest (c :: acc)

/-- `fullText.match(/\[\[(.*?)\]\]/)`: the first `[[` whose lazily-matched
content reaches a `]]` without a newline.  (Advancing by the two bracket
characters after a failed start is equivalent to the engine's
advance-by-one, since a successful overlapping start would need the failed
start's first content character to be both `[` and the newline that made it
fail.) -/
def bracketCapture : List Char → Option (List Char)
  | [] => none
  | '[' :: '[' :: rest =>
    (match brContentAux rest [] with
     | some content => some content
     | none => bracketCapture rest)
  | _ :: rest => bracketCapture rest

/-- Scan for the closing quote of `(.*?)["']`, accumulating newline-free
content. -/
def quoteContentAux : List Char → List Char → Option (List Char)
  | [], _ => none
  | c :: rest, acc =>
    if isQuoteCh c then some acc.reverse
    else if c == '\n' then none
    else quoteContentAux rest (c :: acc)

/-- `problemDescription.match(/noise on ["'](.*?)["']/i)`: the first
case-insensitive `noise on ` followed by a quote, capturing up to the next
quote of either kind. -/
def noiseCapture : List Char → Option (List Char)
  | [] => none
  | c :: rest =>
    if ciStartsWith (c :: rest) "noise on ".data then
      match (c :: rest).drop 9 with
      | q :: after =>
        if isQuoteCh q then
          match quoteContentAux after [] with
          | some content => some content
          | none => noiseCapture rest
        else noiseCapture rest
      | [] => noiseCapture rest
    else noiseCapture rest

/-- One data row of the live `parsePostQcRows`
(`file-parser.service.ts` lines 465-506): rows whose trimmed EDITOR COMMENTS
cell is not exactly `Fixed Not Possible Without Pickup` are skipped; the page
is the first digit run of the page cell (default `'0'`); the context phrase is
the zero-width-space-stripped TEXT cell with `[[`/`]]` markers removed; the
circled words come from the first `[[...]]` group when non-empty, else from a
`noise on "..."` pattern in PROBLEM DESCRIPTION; the synthetic id counter
advances only on emission. -/
def postQcStep2 (cfg : PostQcCfg) (pid : Nat) (row : List Cell) : Nat × Option Correction :=
  if row.isEmpty then (pid, none)
  else
    let editorComment := jsTrim (getCellStr row cfg.editorIndex)
    if editorComment ≠ "Fixed Not Possible Without Pickup" then (pid, none)
    else
      let pageStr := if getCellStr row cfg.pageIndex = "" then "0"
        else getCellStr row cfg.pageIndex
      let page : ℚ := match firstDigitRun pageStr with
        | some n => (n : ℚ)
        | none => 0
      let fullText := stripZwsp (getCellStr row cfg.textIndex)
      let problemDescription := stripZwsp (getCellStr row cfg.problemIndex)
      let contextPhrase := String.mk (removeDoubleBrackets fullText.data)
      let wordsForOblong :=
        match bracketCapture fullText.data with
        | some content =>
          if content.isEmpty then
            match noiseCapture problemDescription.data with
            | some nc => if nc.isEmpty then [] else splitSpaceNE (String.mk nc)
            | none => []
          else splitSpaceNE (String.mk content)
        | none =>
          match noiseCapture problemDescription.data with
          | some nc => if nc.isEmpty then [] else splitSpaceNE (String.mk nc)
          | none => []
      (pid + 1, some
        { Id := toString pid
          Page := some page
          ContextPhrase := contextPhrase
          Notes := problemDescription
          Track := getCellStr row cfg.trackIndex
          Timestamp := getCellStr row cfg.timeIndex
          correctionType := .misread
          wordsForOblong := wordsForOblong })

/-- The row loop of the live `parsePostQcRows`. -/
def postQcCollect2 (cfg : PostQcCfg) : Nat → List (List Cell) → List Correction
  | _, [] => []
  | pid, r :: rs =>
    match postQcStep2 cfg pid r with
    | (pid', some c) => c :: postQcCollect2 cfg pid' rs
    | (pid', none) => postQcCollect2 cfg pid' rs

/-- The live `parsePostQcRows` (`file-parser.service.ts` lines 447-508).
`none` models the thrown header errors (header row not found, or one of the
six column lookups returning `-1`).  The unused `isAudible` parameter of the
source is kept. -/
def parsePostQcRows2 (rows : List (List Cell)) (_isAudible : Bool) :
    Option (List Correction) :=
  match findHeaderIdx postQcRequired rows with
  | none => none
  | some hIdx =>
    let headerUpper := ((rows.get? hIdx).getD []).map upperTrimCell
    match indexOfStr "CD-TRK" headerUpper, indexOfStr "TIME" headerUpper,
        headerUpper.findIdx? (fun h => listStartsWith h.data "PAGE".data),
        indexOfStr "TEXT" headerUpper, indexOfStr "PROBLEM DESCRIPTION" headerUpper,
        indexOfStr "EDITOR COMMENTS" headerUpper with
    | some a, some b, some c, some d, some e, some f =>
      some (postQcCollect2 ⟨a, b, c, d, e, f⟩ 1 (rows.drop (hIdx + 1)))
    | _, _, _, _, _, _ => none

/-! ### The PDF annotation engine (`src/unnamed/part_000`) -/

/-- One per-run match range produced by `findItemSegmentsForPhrase`
(`src/unnamed/part_000` lines 391-404): a run index into the searched item
list and fractional start/end offsets.  Fractions are modelled as rationals
(the JavaScript arithmetic involved in the claims below is order and clamping
only). -/
structure MatchRange where
  itemIndex : Nat
  startFrac : ℚ
  endFrac : ℚ
deriving DecidableEq, Repr

/-- The cross-page split of the bridging search (`src/unnamed/part_000`
lines 110-115, identical for the backward direction at lines 134-139): the
per-run matches over the concatenated item lists are partitioned by comparing
each run index with the primary page's run count `n1`; the first component is
bucketed on the primary page, the second on the adjacent page.  (The source
then maps each range to its segment record; that map is one-to-one on the
ranges, so the partition is stated on the ranges.) -/
def bridgeSplit (n1 : Nat) (ranges : List MatchRange) : List MatchRange × List MatchRange :=
  (ranges.filter (fun r => decide (r.itemIndex < n1)),
   ranges.filter (fun r => decide (n1 ≤ r.itemIndex)))

/-- The underline-span clamping of the drawing loop (`src/unnamed/part_000`
lines 174-175, identical in `src/src/services/pdf.service.ts` lines 95-96):
`clampedStart = max(0, min(1, startFrac))`,
`clampedEnd = max(clampedStart, min(1, endFrac))`. -/
def clampSpan (startFrac endFrac : ℚ) : ℚ × ℚ :=
  let clampedStart := max 0 (min 1 startFrac)
  (clampedStart, max clampedStart (min 1 endFrac))

/-- The draw guard of the same loop (`src/unnamed/part_000` line 176):
`if (clampedEnd <= clampedStart) continue;` — the segment is drawn exactly
when the clamped end exceeds the clamped start. -/
def spanDrawn (startFrac endFrac : ℚ) : Bool :=
  if (clampSpan startFrac endFrac).2 ≤ (clampSpan startFrac endFrac).1 then false else true

/-- First-occurrence de-duplication with an explicit seen accumulator: the key
set of the `correctionsByPage` map in insertion order. -/
def firstDedupAux : List ℚ → List ℚ → List ℚ
  | [], _ => []
  | p :: ps, seen =>
    if p ∈ seen then firstDedupAux ps seen else p :: firstDedupAux ps (p :: seen)

/-- Insertion into an ascending list. -/
def insertAsc (p : ℚ) : List ℚ → List ℚ
  | [] => [p]
  | q :: qs => if p ≤ q then p :: q :: qs else q :: insertAsc p qs

/-- Ascending insertion sort: `Array.from(map.keys()).sort((a, b) => a - b)`. -/
def sortAsc (l : List ℚ) : List ℚ := l.foldr insertAsc []

/-- `pagesToInclude` (`src/unnamed/part_000` line 161): the distinct resolved
page numbers, ascending. -/
def pagesToInclude (resolvedPages : List ℚ) : List ℚ :=
  sortAsc (firstDedupAux resolvedPages [])

/-- The page-copy loop (`src/unnamed/part_000` lines 164-166): each included
page number `p` is copied unless `pageIndex = p - 1` falls outside
`[0, pageCount)`, in which case it is skipped with `continue`. -/
def copiedPages (docPageCount : Nat) : List ℚ → List ℚ
  | [] => []
  | p :: ps =>
    if p - 1 < 0 ∨ (docPageCount : ℚ) ≤ p - 1 then copiedPages docPageCount ps
    else p :: copiedPages docPageCount ps

/-- The assembly result as far as page accounting is concerned
(`src/unnamed/part_000` lines 161-232): `resolvedPages` are the bucket keys of
`correctionsByPage` in insertion order; the output lists the pages actually
copied, and the returned `pageCount` (line 231) is `pagesToInclude.length`. -/
def assemblePages (resolvedPages : List ℚ) (docPageCount : Nat) : List ℚ × Nat :=
  (copiedPages docPageCount (pagesToInclude resolvedPages),
   (pagesToInclude resolvedPages).length)

/-! ### Concrete spreadsheet fixtures for the closed witnesses and counterexamples -/

/-- A standard-dialect header row: ID, PAGE, CONTEXT, status column, NOTES. -/
def stdDemoHeader : List Cell :=
  [some "ID", some "Page", some "Context", some "Status", some "Notes"]

/-- A candidate row whose status cell matches the gating literal exactly. -/
def stdDemoRow : List Cell :=
  [some "1", some "2", some "some context here", some "Fix Not Possible Without Pickup",
   some "word S/B correct"]

/-- A candidate row whose status cell matches the gating literal only up to
case. -/
def stdRowLowerStatus : List Cell :=
  [some "2", some "3", some "ctx", some "fix not possible without pickup", some "note"]

/-- A candidate row with an exactly matching status but a context cell that
normalizes to the empty string. -/
def stdRowEmptyCtx : List Cell :=
  [some "3", some "4", some "___", some "Fix Not Possible Without Pickup", some "note"]

/-- The column indices derived from `stdDemoHeader`. -/
def stdDemoCfg : StdCfg := ⟨0, 1, 2, 4, none⟩

/-- The correction the live standard parser emits for `stdDemoRow`. -/
def stdDemoCorrection : Correction :=
  ⟨"1", some 2, "some context here", "read as \"word\" should be read as \"correct\"",
   "", "", .misread, ["correct"]⟩

/-- A post-QC header row. -/
def postQcDemoHeader : List Cell :=
  [some "CD-TRK", some "TIME", some "PAGE", some "TEXT", some "PROBLEM DESCRIPTION",
   some "EDITOR COMMENTS"]

/-- An accepted post-QC row whose TEXT cell is empty. -/
def postQcDemoRow : List Cell :=
  [some "3", some "00:01:02", some "p. 12", some "", some "loud noise",
   some "Fixed Not Possible Without Pickup"]

/-- The correction the live post-QC parser emits for `postQcDemoRow`: its
context phrase is empty. -/
def postQcDemoCorrection : Correction :=
  ⟨"1", some 12, "", "loud noise", "3", "00:01:02", .misread, []⟩

/-! ### Lemmas about the word splitter and the search normalizer -/

/-- Every word produced by the splitter is non-empty. -/
theorem wordsAux_ne_nil : ∀ (cs acc : List Char), ∀ w ∈ wordsAux cs acc, w ≠ [] := by
  intro cs
  induction cs with
  | nil =>
    intro acc w hw
    by_cases h : acc.isEmpty <;> simp [wordsAux, h] at hw
    rcases hw with rfl
    simpa [List.isEmpty_iff] using h
  | cons c cs ih =>
    intro acc w hw
    by_cases hws : isWsChar c
    · by_cases h : acc.isEmpty
      · rw [wordsAux, if_pos hws, if_pos h] at hw
        exact ih [] w hw
      · rw [wordsAux, if_pos hws, if_neg h] at hw
        rcases List.mem_cons.mp hw with rfl | hw
        · simpa [List.isEmpty_iff] using h
        · exact ih [] w hw
    · rw [wordsAux, if_neg hws] at hw
      exact ih (c :: acc) w hw

/-- Every character of every word produced by the splitter is non-whitespace,
provided the characters already accumulated are. -/
theorem wordsAux_not_ws :
    ∀ (cs acc : List Char), (∀ c ∈ acc, isWsChar c = false) →
      ∀ w ∈ wordsAux cs acc, ∀ c ∈ w, isWsChar c = false := by
  intro cs
  induction cs with
  | nil =>
    intro acc hacc w hw c hc
    by_cases h : acc.isEmpty <;> simp [wordsAux, h] at hw
    rcases hw with rfl
    exact hacc c (by simpa using hc)
  | cons d cs ih =>
    intro acc hacc w hw c hc
    by_cases hws : isWsChar d
    · by_cases h : acc.isEmpty
      · rw [wordsAux, if_pos hws, if_pos h] at hw
        exact ih [] (by simp) w hw c hc
      · rw [wordsAux, if_pos hws, if_neg h] at hw
        rcases List.mem_cons.mp hw with rfl | hw
        · exact hacc c (by simpa using hc)
        · exact ih [] (by simp) w hw c hc
    · rw [wordsAux, if_neg hws] at hw
      refine ih (d :: acc) ?_ w hw c hc
      intro e he
      rcases List.mem_cons.mp he with rfl | he
      · simpa using hws
      · exact hacc e he


/-- Characters of splitter words come from the input or the accumulator. -/
theorem wordsAux_mem_chars :
    ∀ (cs acc : List Char), ∀ w ∈ wordsAux cs acc, ∀ c ∈ w, c ∈ cs ∨ c ∈ acc := by
  intro cs
  induction cs with
  | nil =>
    intro acc w hw c hc
    by_cases h : acc.isEmpty <;> simp [wordsAux, h] at hw
    rcases hw with rfl
    exact Or.inr (by simpa using hc)
  | cons d cs ih =>
    intro acc w hw c hc
    by_cases hws : isWsChar d
    · by_cases h : acc.isEmpty
      · rw [wordsAux, if_pos hws, if_pos h] at hw
        rcases ih [] w hw c hc with h' | h'
        · exact Or.inl (List.mem_cons_of_mem _ h')
        · simp at h'
      · rw [wordsAux, if_pos hws, if_neg h] at hw
        rcases List.mem_cons.mp hw with rfl | hw
        · exact Or.inr (by simpa using hc)
        · rcases ih [] w hw c hc with h' | h'
          · exact Or.inl (List.mem_cons_of_mem _ h')
          · simp at h'
    · rw [wordsAux, if_neg hws] at hw
      rcases ih (d :: acc) w hw c hc with h' | h'
      · exact Or.inl (List.mem_cons_of_mem _ h')
      · rcases List.mem_cons.mp h' with rfl | h'
        · exact Or.inl (List.mem_cons_self _ _)
        · exact Or.inr h'

/-- Feeding a run of non-whitespace characters into the splitter just extends
the accumulator. -/
theorem wordsAux_append (w : List Char) (hw : ∀ c ∈ w, isWsChar c = false) :
    ∀ (cs acc : List Char), wordsAux (w ++ cs) acc = wordsAux cs (w.reverse ++ acc) := by
  induction w with
  | nil => intro cs acc; simp
  | cons c w ih =>
    intro cs acc
    have hc : isWsChar c = false := hw c (List.mem_cons_self _ _)
    have hw' : ∀ d ∈ w, isWsChar d = false := fun d hd => hw d (List.mem_cons_of_mem _ hd)
    rw [List.cons_append, wordsAux, if_neg (by simp [hc])]
    rw [ih hw' cs (c :: acc)]
    simp

/-- Splitting the space-joined image of a list of non-empty, whitespace-free
words recovers exactly that list. -/
theorem wordsOf_joinWords :
    ∀ ws : List (List Char), (∀ w ∈ ws, w ≠ []) →
      (∀ w ∈ ws, ∀ c ∈ w, isWsChar c = false) →
      wordsOf (joinWords ws) = ws := by
  intro ws
  induction ws with
  | nil => intro _ _; rfl
  | cons w rest ih =>
    intro h1 h2
    have hw1 : w ≠ [] := h1 w (List.mem_cons_self _ _)
    have hw2 : ∀ c ∈ w, isWsChar c = false := h2 w (List.mem_cons_self _ _)
    cases rest with
    | nil =>
      show wordsAux (joinWords [w]) [] = [w]
      have hjw : joinWords [w] = w ++ [] := by simp [joinWords]
      rw [hjw, wordsAux_append w hw2 [] []]
      have hne : (w.reverse ++ []).isEmpty = false := by
        rw [List.append_nil]
        cases hrw : w.reverse with
        | nil => exact absurd (List.reverse_eq_nil_iff.mp hrw) hw1
        | cons a t => rfl
      simp [wordsAux, hne, hw1]
    | cons w' rest' =>
      have hrest1 : ∀ u ∈ w' :: rest', u ≠ [] := fun u hu => h1 u (List.mem_cons_of_mem _ hu)
      have hrest2 : ∀ u ∈ w' :: rest', ∀ c ∈ u, isWsChar c = false :=
        fun u hu => h2 u (List.mem_cons_of_mem _ hu)
      show wordsAux (joinWords (w :: w' :: rest')) [] = w :: w' :: rest'
      rw [joinWords, wordsAux_append w hw2 (' ' :: joinWords (w' :: rest')) []]
      have hne : (w.reverse ++ []).isEmpty = false := by
        rw [List.append_nil]
        cases hrw : w.reverse with
        | nil => exact absurd (List.reverse_eq_nil_iff.mp hrw) hw1
        | cons a t => rfl
      rw [wordsAux, if_pos (by decide), if_neg (by simp [hne, hw1])]
      have := ih hrest1 hrest2
      rw [show wordsAux (joinWords (w' :: rest')) [] = wordsOf (joinWords (w' :: rest')) from rfl,
        this]
      simp

/-- Every character of a space-joined word list is a word character or a space. -/
theorem mem_joinWords :
    ∀ (ws : List (List Char)) (c : Char), c ∈ joinWords ws → (∃ w ∈ ws, c ∈ w) ∨ c = ' ' := by
  intro ws
  induction ws with
  | nil => intro c hc; simp [joinWords] at hc
  | cons w rest ih =>
    intro c hc
    cases rest with
    | nil =>
      simp only [joinWords] at hc
      exact Or.inl ⟨w, List.mem_cons_self _ _, hc⟩
    | cons w' rest' =>
      rw [joinWords] at hc
      rcases List.mem_append.mp hc with hc | hc
      · exact Or.inl ⟨w, List.mem_cons_self _ _, hc⟩
      · rcases List.mem_cons.mp hc with rfl | hc
        · exact Or.inr rfl
        · rcases ih c hc with ⟨u, hu, hcu⟩ | h
          · exact Or.inl ⟨u, List.mem_cons_of_mem _ hu, hcu⟩
          · exact Or.inr h

/-- Every character emitted by `normChar` is a keep character or whitespace. -/
theorem normChar_mem (c d : Char) (hd : d ∈ normChar c) :
    isKeepChar d = true ∨ isWsChar d = true := by
  unfold normChar at hd
  rcases hlig : ligExpand (asciiLower c) with _ | e
  · rw [hlig] at hd
    unfold normCharTail at hd
    by_cases hkeep : isKeepChar (quoteMap (asciiLower c))
    · rw [if_pos hkeep] at hd
      simp at hd
      subst hd
      exact Or.inl hkeep
    · rw [if_neg hkeep] at hd
      by_cases hws : isWsChar (quoteMap (asciiLower c))
      · rw [if_pos hws] at hd
        simp at hd
        subst hd
        exact Or.inr hws
      · rw [if_neg hws] at hd
        simp at hd
        subst hd
        exact Or.inr (by decide)
  · rw [hlig] at hd
    unfold ligExpand at hlig
    split_ifs at hlig <;>
      (injection hlig with h; subst h; fin_cases hd <;> exact Or.inl (by decide))

/-- `normChar` fixes every keep character and the space. -/
theorem normChar_plain (c : Char) (h : isKeepChar c = true ∨ c = ' ') : normChar c = [c] := by
  have hle : c.toNat ≤ 122 := by
    rcases h with h | rfl
    · rcases Bool.or_eq_true _ _ |>.mp h with h' | h'
      · rcases Bool.or_eq_true _ _ |>.mp h' with h'' | h''
        · exact of_decide_eq_true (Bool.and_eq_true _ _ |>.mp h'').2
        · have := of_decide_eq_true (Bool.and_eq_true _ _ |>.mp h'').2
          omega
      · have hc : c = '\'' := by simpa using h'
        subst hc; decide
    · decide
  have hnl : ¬(65 ≤ c.toNat && c.toNat ≤ 90) = true := by
    rcases h with h | rfl
    · rcases Bool.or_eq_true _ _ |>.mp h with h' | h'
      · rcases Bool.or_eq_true _ _ |>.mp h' with h'' | h''
        · have := of_decide_eq_true (Bool.and_eq_true _ _ |>.mp h'').1
          simp only [Bool.and_eq_true, decide_eq_true_eq, not_and]
          omega
        · have := of_decide_eq_true (Bool.and_eq_true _ _ |>.mp h'').2
          simp only [Bool.and_eq_true, decide_eq_true_eq, not_and]
          omega
      · have hc : c = '\'' := by simpa using h'
        subst hc; decide
    · decide
  have hbig : ∀ d : Char, 122 < d.toNat → (c == d) = false := by
    intro d hdn
    exact beq_eq_false_iff_ne.mpr (fun hc => by subst hc; omega)
  have hlow : asciiLower c = c := by
    unfold asciiLower
    rw [if_neg hnl]
  have hlig : ligExpand c = none := by
    unfold ligExpand
    rw [hbig 'ﬁ' (by decide), hbig 'ﬂ' (by decide), hbig 'ﬀ' (by decide),
      hbig 'ﬃ' (by decide), hbig 'ﬄ' (by decide)]
    rfl
  have hquote : quoteMap c = c := by
    unfold quoteMap
    rw [hbig '‘' (by decide), hbig '’' (by decide), hbig '“' (by decide), hbig '”' (by decide)]
    rfl
  unfold normChar normCharTail
  rw [hlow, hlig, hquote]
  rcases h with h | rfl
  · rw [if_pos h]
  · rw [if_neg (by decide), if_pos (by decide)]

/-- Flat-mapping `normChar` over a string all of whose characters it fixes is
the identity. -/
theorem flatMap_normChar_id (cs : List Char) (h : ∀ c ∈ cs, normChar c = [c]) :
    cs.flatMap normChar = cs := by
  induction cs with
  | nil => rfl
  | cons c cs ih =>
    rw [List.flatMap_cons, h c (List.mem_cons_self _ _),
      ih (fun d hd => h d (List.mem_cons_of_mem _ hd))]
    rfl

/-- The list-level composite of `normalizeForSearch` is idempotent: its output
consists of non-empty whitespace-free words of keep characters joined by single
spaces, all of which `normChar` fixes. -/
theorem normList_idem (cs : List Char) :
    joinWords (wordsOf ((joinWords (wordsOf (cs.flatMap normChar))).flatMap normChar))
      = joinWords (wordsOf (cs.flatMap normChar)) := by
  have hfix : ∀ c ∈ joinWords (wordsOf (cs.flatMap normChar)), normChar c = [c] := by
    intro c hc
    rcases mem_joinWords _ c hc with ⟨w, hw, hcw⟩ | rfl
    · have hnotws : isWsChar c = false := wordsAux_not_ws _ [] (by simp) w hw c hcw
      have hprov : c ∈ cs.flatMap normChar := by
        rcases wordsAux_mem_chars _ [] w hw c hcw with h | h
        · exact h
        · simp at h
      have hkw : isKeepChar c = true ∨ isWsChar c = true := by
        rcases List.mem_flatMap.mp hprov with ⟨c0, _, hc0⟩
        exact normChar_mem c0 c hc0
      rcases hkw with h | h
      · exact normChar_plain c (Or.inl h)
      · rw [hnotws] at h
        exact Bool.noConfusion h
    · exact normChar_plain ' ' (Or.inr rfl)
  rw [flatMap_normChar_id _ hfix]
  rw [wordsOf_joinWords (wordsOf (cs.flatMap normChar))
    (fun w hw => wordsAux_ne_nil _ [] w hw)
    (fun w hw => wordsAux_not_ws _ [] (by simp) w hw)]

/-- C10: the search normalizer is idempotent: normalizing an already-normalized
string changes nothing, because the output consists only of lowercase keep
characters and single interior spaces, which every stage of the normalizer
leaves unchanged. -/
theorem normalizeForSearch_idempotent (s : String) :
    normalizeForSearch (normalizeForSearch s) = normalizeForSearch s := by
  unfold normalizeForSearch
  exact congrArg String.mk (normList_idem s.data)

/-- C6 counterexample: on the spec's example input the normalizer does not
return the double-quoted form the claim states; the straight double quote is
removed by the keep-class filter. -/
theorem normalize_scenario_cex :
    normalizeForSearch "ﬁnd “quotes’s”" ≠ "find \"quotes's\"" := by decide

/-- C6 (amended): the example input is lowercased, the ligature expanded and the
curly quotes straightened, but the straight double quote is then dropped by the
keep-class filter (only the apostrophe survives), giving `find quotes's`. -/
theorem normalize_scenario_amended :
    normalizeForSearch "ﬁnd “quotes’s”" = "find quotes's" := by decide

/-! ### Classifier lemmas and claim theorems -/

/-- Every branch of the live classifier passes the supplied context through
unchanged as `searchableContext`. -/
theorem processNotes2_searchableContext (notes ctx : String) (a : Bool) :
    (processNotes2 notes ctx a).searchableContext = ctx := by
  unfold processNotes2
  split
  · rfl
  · rcases h1 : sbMatch2 (stripZwsp (jsTrim notes)) with _ | ⟨tag, w1, r1⟩
    · rcases h2 : soundsLikeMatch (stripZwsp (jsTrim notes)) with _ | ⟨l2, r2⟩
      · rcases h3 : omittedLineMatch (stripZwsp (jsTrim notes)) with _ | c3
        · rcases h4 : missingMatch (stripZwsp (jsTrim notes)) with _ | c4
          · rcases h5 : omittedColonMatch (stripZwsp (jsTrim notes)) with _ | c5
            · rcases h6 : omittedPlainMatch (stripZwsp (jsTrim notes)) with _ | c6
              · rcases h7 : insertedMatch (stripZwsp (jsTrim notes)) with _ | c7
                · simp only [h1, h2, h3, h4, h5, h6, h7]
                · simp only [h1, h2, h3, h4, h5, h6, h7]
              · simp only [h1, h2, h3, h4, h5, h6]
            · simp only [h1, h2, h3, h4, h5]
          · simp only [h1, h2, h3, h4]
        · simp only [h1, h2, h3]
      · simp only [h1, h2]
    · simp only [h1]

/-- A correction emitted by the live standard row handler always carries a
non-empty context phrase (the empty-context guard precedes the push). -/
theorem stdStep2_emit_context (cfg : StdCfg) (a : Bool) (t : String) (row : List Cell)
    (c : Correction) (h : (stdStep2 cfg a t row).2 = some c) : c.ContextPhrase ≠ "" := by
  unfold stdStep2 at h
  repeat' split at h
  all_goals simp_all
  all_goals (repeat' split at h)
  all_goals simp_all
  all_goals (rw [← h])
  all_goals simp_all

/-- All corrections collected by the live standard row loop have non-empty
context phrases, whatever the running track state. -/
theorem stdCollect2_context (cfg : StdCfg) (a : Bool) :
    ∀ (rs : List (List Cell)) (track : String), ∀ c ∈ stdCollect2 cfg a track rs,
      c.ContextPhrase ≠ "" := by
  intro rs
  induction rs with
  | nil => intro track c hc; simp [stdCollect2] at hc
  | cons r rs ih =>
    intro track c hc
    rcases hstep : stdStep2 cfg a track r with ⟨t', oc⟩
    cases oc with
    | none =>
      simp only [stdCollect2, hstep] at hc
      exact ih t' c hc
    | some c0 =>
      simp only [stdCollect2, hstep] at hc
      rcases List.mem_cons.mp hc with rfl | hc
      · exact stdStep2_emit_context cfg a track r c (by rw [hstep])
      · exact ih t' c hc

/-- C2 (amended): in the standard dialect, every Correction returned by the
live extractor has a non-empty ContextPhrase — a row whose processed context is
empty is dropped (with a console diagnostic) rather than emitted, and never
makes the call fail.  The post-QC extractor has no such guard; see the
counterexample. -/
theorem std_contextPhrase_nonempty (rows : List (List Cell)) (isAudible : Bool)
    (out : List Correction) (hp : parseStandardQcRows2 rows isAudible = some out) :
    ∀ c ∈ out, c.ContextPhrase ≠ "" := by
  unfold parseStandardQcRows2 at hp
  rcases hh : findHeaderIdx stdRequired rows with _ | hIdx
  · rw [hh] at hp
    exact absurd hp (by simp)
  · rw [hh] at hp
    simp only [Option.some.injEq] at hp
    rw [← hp]
    exact stdCollect2_context _ _ _ _

/-- Witness for C2: the demo sheet yields a correction, and the theorem applies
to it. -/
theorem std_contextPhrase_nonempty_witness : stdDemoCorrection.ContextPhrase ≠ "" :=
  std_contextPhrase_nonempty [stdDemoHeader, stdDemoRow] false [stdDemoCorrection]
    (by decide) stdDemoCorrection (by decide)

/-- C2 counterexample: the live post-QC extractor returns a Correction whose
ContextPhrase is empty when an accepted row's TEXT cell is empty, refuting the
claim for the post-QC dialect. -/
theorem postqc_empty_context_cex :
    parsePostQcRows2 [postQcDemoHeader, postQcDemoRow] false = some [postQcDemoCorrection] ∧
    postQcDemoCorrection.ContextPhrase = "" := by
  constructor
  · decide
  · rfl

/-- C1 (amended): for a non-empty standard-dialect row that is not a track
marker and whose ID cell is truthy and numeric, the live row handler emits a
Correction if and only if the trimmed cell in the column immediately after
CONTEXT equals `Fix Not Possible Without Pickup` exactly (trimming makes the
comparison insensitive to surrounding whitespace but it remains
case-sensitive), and the normalized CONTEXT cell is non-empty. -/
theorem std_gating_iff (cfg : StdCfg) (a : Bool) (t : String) (row : List Cell)
    (hrow : ¬row = [])
    (hwav : findWavCell row = none)
    (hid1 : ¬getCellStr row cfg.idIndex = "")
    (hid2 : ¬jsNumber (getCellStr row cfg.idIndex) = none) :
    (stdStep2 cfg a t row).2.isSome = true ↔
      (jsTrim (getCellStr row (cfg.contextIndex + 1)) = "Fix Not Possible Without Pickup" ∧
       ¬normalizeText2 (getCellStr row cfg.contextIndex) = "") := by
  unfold stdStep2
  simp only [List.isEmpty_iff, hwav]
  rw [if_neg (by simp [hrow])]
  rw [if_neg (by simp [hid1, hid2])]
  by_cases hs : jsTrim (getCellStr row (cfg.contextIndex + 1)) = "Fix Not Possible Without Pickup"
  · rw [if_pos hs]
    by_cases hc : normalizeText2 (getCellStr row cfg.contextIndex) = ""
    · rw [if_pos (by rw [processNotes2_searchableContext]; exact hc)]
      simp [hs, hc]
    · rw [if_neg (by rw [processNotes2_searchableContext]; exact hc)]
      simp [hs, hc]
  · rw [if_neg hs]
    simp [hs]

/-- Witness for C1: the theorem applied to the demo candidate row. -/
theorem std_gating_iff_witness :
    (stdStep2 stdDemoCfg false "" stdDemoRow).2.isSome = true ↔
      (jsTrim (getCellStr stdDemoRow (stdDemoCfg.contextIndex + 1)) =
          "Fix Not Possible Without Pickup" ∧
       ¬normalizeText2 (getCellStr stdDemoRow stdDemoCfg.contextIndex) = "") :=
  std_gating_iff stdDemoCfg false "" stdDemoRow (by decide) (by decide) (by decide) (by decide)

/-- C1 counterexample: a candidate row whose status cell equals the gating
phrase only case-insensitively emits nothing (gating is case-sensitive in the
live parser), and a candidate row whose status matches exactly but whose
context cell normalizes to the empty string also emits nothing — refuting the
claimed if-and-only-if in both directions. -/
theorem std_gating_claim_cex :
    (jsTrim (getCellStr stdRowLowerStatus (stdDemoCfg.contextIndex + 1)) =
        lowerStr "Fix Not Possible Without Pickup" ∧
     parseStandardQcRows2 [stdDemoHeader, stdRowLowerStatus] false = some []) ∧
    (jsTrim (getCellStr stdRowEmptyCtx (stdDemoCfg.contextIndex + 1)) =
        "Fix Not Possible Without Pickup" ∧
     parseStandardQcRows2 [stdDemoHeader, stdRowEmptyCtx] false = some []) := by
  decide

/-- C3 (code bug): on the spec's scenario — note `Inserted: really`, raw
context with a placeholder run between `happy` and `today` — the superseded
classifier (the only variant that attempts boundary extraction) returns the
word before the first whitespace-or-placeholder run paired with the empty
string, because the trailing lazy capture of `/(.*?)[\s_﹏]+(.*?)/s` always
matches the empty string; the live classifier abandons boundary extraction and
returns the inserted word itself.  Neither yields the specified
`["happy", "today"]`. -/
theorem inserted_boundary_eval :
    processNotes1 "Inserted: really" "happy ﹏﹏ today" false =
      ⟨"\"really\" was inserted and should be omitted.", ["happy", ""], .inserted,
       "happy today"⟩ ∧
    (processNotes2 "Inserted: really" "happy ﹏﹏ today" false).wordsForOblong = ["really"] := by
  decide

/-- C4: whenever the live classifier's Missing rule fires (the earlier S/B,
sounds-like and omitted-line rules do not match) and the captured missing text
has two or more space-separated words, audible mode prepends the line-level
`ML:` prefix, emphasizes exactly the missing words, and classifies the note as
Missing. -/
theorem missing_multiword_ml (notes ctx m : String)
    (h1 : sbMatch2 (stripZwsp (jsTrim notes)) = none)
    (h2 : soundsLikeMatch (stripZwsp (jsTrim notes)) = none)
    (h3 : omittedLineMatch (stripZwsp (jsTrim notes)) = none)
    (h4 : missingMatch (stripZwsp (jsTrim notes)) = some m)
    (h5 : 2 ≤ (splitSpaceNE (stripEdgeQuotes (jsTrim m))).length) :
    processNotes2 notes ctx true =
      ⟨"ML: " ++ ("\"" ++ stripEdgeQuotes (jsTrim m) ++ "\" is missing and should be read."),
       splitSpaceNE (stripEdgeQuotes (jsTrim m)), .missing, ctx⟩ := by
  have hn : ¬notes = "" := by
    intro h
    subst h
    rw [show missingMatch (stripZwsp (jsTrim "")) = none from rfl] at h4
    exact Option.noConfusion h4
  unfold processNotes2
  rw [if_neg hn]
  simp only [h1, h2, h3, h4]
  rw [if_pos h5]
  simp

/-- Witness for C4: the claim's scenario, `Missing: the dog ran` in audible
mode, via the theorem. -/
theorem missing_multiword_ml_witness :
    processNotes2 "Missing: the dog ran" "the dog ran today" true =
      ⟨"ML: \"the dog ran\" is missing and should be read.", ["the", "dog", "ran"], .missing,
       "the dog ran today"⟩ := by
  have h := missing_multiword_ml "Missing: the dog ran" "the dog ran today" "the dog ran"
    (by decide) (by decide) (by decide) (by decide) (by decide)
  exact h.trans (by decide)

/-- C5 (amended): when no classifier pattern matches, the live classifier
passes the (trimmed, zero-width-space-stripped) note through verbatim with
correction type Misread and no emphasis words — and, contrary to the claim, it
prepends no `MR:` role tag even in audible mode. -/
theorem fallthrough_verbatim (notes ctx : String) (isAudible : Bool)
    (h1 : sbMatch2 (stripZwsp (jsTrim notes)) = none)
    (h2 : soundsLikeMatch (stripZwsp (jsTrim notes)) = none)
    (h3 : omittedLineMatch (stripZwsp (jsTrim notes)) = none)
    (h4 : missingMatch (stripZwsp (jsTrim notes)) = none)
    (h5 : omittedColonMatch (stripZwsp (jsTrim notes)) = none)
    (h6 : omittedPlainMatch (stripZwsp (jsTrim notes)) = none)
    (h7 : insertedMatch (stripZwsp (jsTrim notes)) = none) :
    processNotes2 notes ctx isAudible =
      ⟨stripZwsp (jsTrim notes), [], .misread, ctx⟩ := by
  by_cases hn : notes = ""
  · subst hn
    rfl
  · unfold processNotes2
    rw [if_neg hn]
    simp only [h1, h2, h3, h4, h5, h6, h7]

/-- Witness for C5: an unclassifiable note in audible mode, via the theorem. -/
theorem fallthrough_verbatim_witness :
    processNotes2 "hello there" "x" true = ⟨"hello there", [], .misread, "x"⟩ := by
  have h := fallthrough_verbatim "hello there" "x" true (by decide) (by decide) (by decide)
    (by decide) (by decide) (by decide) (by decide)
  exact h.trans (by decide)

/-- C5 counterexample: in audible mode the live classifier's fallthrough does
not prepend `MR:` — the note comes back untouched. -/
theorem fallthrough_no_mr_cex :
    (processNotes2 "hello there" "x" true).formattedNote = "hello there" ∧
    ("hello there" : String) ≠ "MR: hello there" := by
  decide

/-- Complementary filters split a list's element counts exactly. -/
theorem count_filter_split (p : MatchRange → Bool) (l : List MatchRange) (r : MatchRange) :
    ((l.filter p).count r + (l.filter (fun x => !p x)).count r) = l.count r := by
  induction l with
  | nil => rfl
  | cons a l ih =>
    by_cases hp : p a = true
    · by_cases har : (a == r) = true
      · simp [List.filter_cons, hp, List.count_cons, har, ← ih]
        omega
      · simp [List.filter_cons, hp, List.count_cons, har, ← ih]
    · by_cases har : (a == r) = true
      · simp [List.filter_cons, hp, List.count_cons, har, ← ih]
        omega
      · simp [List.filter_cons, hp, List.count_cons, har, ← ih]

/-- The two bridge filters are pointwise complementary. -/
theorem bridge_filters_compl (n1 : Nat) (x : MatchRange) :
    decide (n1 ≤ x.itemIndex) = !decide (x.itemIndex < n1) := by
  by_cases h : x.itemIndex < n1
  · have h' : ¬n1 ≤ x.itemIndex := by omega
    simp [h, h']
  · have h' : n1 ≤ x.itemIndex := by omega
    simp [h, h']

/-- C7: in the cross-page bridging split, a matched run range lands on the
primary page exactly when its run index is below the primary page's run count
and on the adjacent page exactly otherwise, and the multiplicity of every range
is preserved across the two result sets — nothing is duplicated or lost. -/
theorem bridge_split_partition (n1 : Nat) (ranges : List MatchRange) (r : MatchRange) :
    ((r ∈ (bridgeSplit n1 ranges).1 ↔ r ∈ ranges ∧ r.itemIndex < n1) ∧
     (r ∈ (bridgeSplit n1 ranges).2 ↔ r ∈ ranges ∧ ¬r.itemIndex < n1)) ∧
    ((bridgeSplit n1 ranges).1.count r + (bridgeSplit n1 ranges).2.count r
      = ranges.count r) := by
  refine ⟨⟨?_, ?_⟩, ?_⟩
  · simp [bridgeSplit, List.mem_filter]
  · simp [bridgeSplit, List.mem_filter, Nat.not_lt]
  · have hfun : (fun x : MatchRange => decide (n1 ≤ x.itemIndex)) =
        (fun x : MatchRange => !decide (x.itemIndex < n1)) := by
      funext x
      exact bridge_filters_compl n1 x
    show List.count r (ranges.filter (fun x => decide (x.itemIndex < n1))) +
        List.count r (ranges.filter (fun x => decide (n1 ≤ x.itemIndex)))
      = List.count r ranges
    rw [hfun]
    exact count_filter_split _ ranges r

/-- C8 (amended): every fractional span is clamped into `[0, 1]` with its end
no earlier than its start, and the mark is drawn exactly when the clamped span
has strictly positive length — a span whose clamped end does not exceed its
clamped start (in particular start = end) is skipped, not collapsed to a
minimum width. -/
theorem clamp_span_spec (s e : ℚ) :
    0 ≤ (clampSpan s e).1 ∧ (clampSpan s e).1 ≤ 1 ∧
    (clampSpan s e).1 ≤ (clampSpan s e).2 ∧ (clampSpan s e).2 ≤ 1 ∧
    (spanDrawn s e = true ↔ (clampSpan s e).1 < (clampSpan s e).2) := by
  refine ⟨?_, ?_, ?_, ?_, ?_⟩
  · show (0 : ℚ) ≤ max 0 (min 1 s)
    exact le_max_left _ _
  · show max (0 : ℚ) (min 1 s) ≤ 1
    exact max_le zero_le_one (min_le_left _ _)
  · show max (0 : ℚ) (min 1 s) ≤ max (max 0 (min 1 s)) (min 1 e)
    exact le_max_left _ _
  · show max (max (0 : ℚ) (min 1 s)) (min 1 e) ≤ 1
    exact max_le (max_le zero_le_one (min_le_left _ _)) (min_le_left _ _)
  · show (if max (max (0 : ℚ) (min 1 s)) (min 1 e) ≤ max 0 (min 1 s) then false else true)
        = true ↔ max (0 : ℚ) (min 1 s) < max (max 0 (min 1 s)) (min 1 e)
    by_cases h : max (max (0 : ℚ) (min 1 s)) (min 1 e) ≤ max 0 (min 1 s)
    · rw [if_pos h]
      simp [not_lt.mpr h]
    · rw [if_neg h]
      simp [lt_of_not_le h]

/-- C8 counterexample: a span whose start equals its end exactly is not drawn
at all — the draw guard skips it instead of widening it to a minimum visible
width. -/
theorem clamp_span_drop_cex :
    clampSpan (1 / 2 : ℚ) (1 / 2) = (1 / 2, 1 / 2) ∧ spanDrawn (1 / 2 : ℚ) (1 / 2) = false := by
  have h1 : clampSpan (1 / 2 : ℚ) (1 / 2) = (1 / 2, 1 / 2) := by
    unfold clampSpan
    norm_num
  refine ⟨h1, ?_⟩
  unfold spanDrawn
  rw [h1]
  norm_num

/-- The page-copy loop is the range filter. -/
theorem copiedPages_eq_filter (docPageCount : Nat) (l : List ℚ) :
    copiedPages docPageCount l =
      l.filter (fun p => decide (¬(p - 1 < 0 ∨ (docPageCount : ℚ) ≤ p - 1))) := by
  induction l with
  | nil => rfl
  | cons p ps ih =>
    by_cases h : p - 1 < 0 ∨ (docPageCount : ℚ) ≤ p - 1
    · simp only [copiedPages, List.filter_cons]
      rw [if_pos h, if_neg (by simp only [decide_eq_true_eq]; exact fun hc => hc h), ih]
    · simp only [copiedPages, List.filter_cons]
      rw [if_neg h, if_pos (by simp only [decide_eq_true_eq]; exact h), ih]

/-- C9 (amended): assembly never fails on an out-of-range resolved page — such
pages are skipped (the copied pages are exactly the in-range ones) — but the
returned page count is the number of distinct resolved pages including the
skipped ones, so it can exceed the number of pages actually copied. -/
theorem assemble_count_spec (resolvedPages : List ℚ) (docPageCount : Nat) :
    (assemblePages resolvedPages docPageCount).2 = (pagesToInclude resolvedPages).length ∧
    (assemblePages resolvedPages docPageCount).1 =
      (pagesToInclude resolvedPages).filter
        (fun p => decide (¬(p - 1 < 0 ∨ (docPageCount : ℚ) ≤ p - 1))) ∧
    (assemblePages resolvedPages docPageCount).1.length ≤
      (assemblePages resolvedPages docPageCount).2 := by
  refine ⟨rfl, copiedPages_eq_filter _ _, ?_⟩
  show (copiedPages docPageCount (pagesToInclude resolvedPages)).length ≤
    (pagesToInclude resolvedPages).length
  rw [copiedPages_eq_filter]
  exact List.length_filter_le _ _

/-- C9 counterexample: one correction resolved to page 5 of a 2-page document:
no page is copied, yet the returned page count is 1, refuting the claim that
the count equals the number of pages actually copied. -/
theorem assemble_count_cex :
    assemblePages [(5 : ℚ)] 2 = ([], 1) ∧ ¬(([] : List ℚ).length = 1) := by
  constructor
  · show (copiedPages 2 (sortAsc [(5 : ℚ)]), _) = _
    norm_num [sortAsc, insertAsc, copiedPages, pagesToInclude, firstDedupAux]
  · decide

end QCPack
